import Mathlib

/-!
Verification development for the `net-exp-bridge` repository.

The bridge simulator (`src/bin/simulate.rs`) is embedded as a pure state
machine: the `BTreeMap`s used by the Rust code are modelled as association
lists (unique keys are an invariant of all reachable states and are taken
as explicit hypotheses where a proof needs them), events are consumed one
at a time and the commands emitted by each step are collected in order.
Wall-clock instants are irrelevant to the claims about record counts and
are replaced by explicit numeric timestamps where needed.
-/

/-- A 4-byte address (`Address { data: [u8; 4] }` in `lib.rs`). -/
structure Address where
  b0 : Nat
  b1 : Nat
  b2 : Nat
  b3 : Nat
deriving DecidableEq

/-- A 2-byte segment identifier (`Segment { data: [u8; 2] }` in `lib.rs`). -/
structure Segment where
  b0 : Nat
  b1 : Nat
deriving DecidableEq

/-- The frame payload, `pub type FrameData = [u8; 4]`; modelled as a list of
bytes whose length is 4 for every value built by the simulator. -/
abbrev FrameData := List Nat

/-- A routed frame (`Frame` in `lib.rs`). -/
structure Frame where
  src : Address
  src_seg : Segment
  dst : Address
  data : FrameData
deriving DecidableEq

/-- Event that the bridge receives (`enum Event` in `simulate.rs`). -/
inductive Event where
  | request (f : Frame)
  | success (a : Address) (s : Segment)
  | failure (a : Address)
  | shutdown
deriving DecidableEq

/-- Command that the bridge emits (`enum Command` in `simulate.rs`). -/
inductive Command where
  | broadcast (a : Address)
  | dispatch (f : Frame) (s : Segment)
  | discard (f : Frame)
deriving DecidableEq

/-- One bridge statistics record (`enum BridgeStatRecord`). -/
inductive BridgeStatRecord where
  | broadcast (f : Frame)
  | dispatch (f : Frame)
  | discard (f : Frame)
deriving DecidableEq

/-- Lookup in an association list, first match wins; models `BTreeMap::get`
(the maps built by the bridge have unique keys). -/
def alget {α β : Type} [DecidableEq α] : List (α × β) → α → Option β
  | [], _ => none
  | (k, v) :: rest, a => if k = a then some v else alget rest a

/-- Insert-or-overwrite; models `BTreeMap::insert` (value replaced in place
when the key exists, appended otherwise; key order is never observed). -/
def alinsert {α β : Type} [DecidableEq α] : List (α × β) → α → β → List (α × β)
  | [], a, b => [(a, b)]
  | (k, v) :: rest, a, b => if k = a then (a, b) :: rest else (k, v) :: alinsert rest a b

/-- Remove the entry of a key (first match); models `BTreeMap::remove`. -/
def alremove {α β : Type} [DecidableEq α] : List (α × β) → α → List (α × β)
  | [], _ => []
  | (k, v) :: rest, a => if k = a then rest else (k, v) :: alremove rest a

/-- Append a value to the bucket of a key, creating the bucket when absent;
models `self.map.entry(frame.dst).or_insert_with(Vec::new); frames.push(frame)`
in `Holder::hold`. -/
def alpush {α β : Type} [DecidableEq α] : List (α × List β) → α → β → List (α × List β)
  | [], a, b => [(a, [b])]
  | (k, vs) :: rest, a, b =>
      if k = a then (k, vs ++ [b]) :: rest else (k, vs) :: alpush rest a b

/-- The association list has pairwise distinct keys (true of every state the
bridge reaches, since `BTreeMap` keys are unique). -/
def NodupKeys {α β : Type} (l : List (α × β)) : Prop := (l.map Prod.fst).Nodup

/-- Model of `Holder::exist_addr`, i.e. `BTreeMap::contains_key`. -/
def existAddr (p : List (Address × List Frame)) (a : Address) : Bool :=
  (alget p a).isSome

/-- The frames held under an address: `map.remove(&addr).unwrap_or_default()`
reads exactly this bucket (empty when the key is absent). -/
def heldAt (p : List (Address × List Frame)) (a : Address) : List Frame :=
  (alget p a).getD []

/-- The mutable state of the `bridge` function in `simulate.rs`: the learning
table `mapping`, the pending `Holder`, the `BridgeStat` record list and the
`BridgePendingStat` sample list (timestamps omitted). -/
structure BridgeState where
  mapping : List (Address × Segment)
  pending : List (Address × List Frame)
  stat : List BridgeStatRecord
  pending_stat : List Nat
deriving DecidableEq

/-- The state the bridge starts from: all four components empty. -/
def initState : BridgeState :=
  { mapping := [], pending := [], stat := [], pending_stat := [] }

/-- The learning table after the source-learning phase of `Event::Request`:
the entry for `frame.src` is inserted only when absent (`simulate.rs`,
`if mapping.get(&frame.src).is_none()`). -/
def requestMapping (s : BridgeState) (f : Frame) : List (Address × Segment) :=
  if (alget s.mapping f.src).isNone then
    alinsert s.mapping f.src f.src_seg
  else
    s.mapping

/-- One iteration of the `bridge` event loop on a single event, returning the
new state and the commands sent (in order) during that iteration; mirrors the
`match event` arms of `simulate.rs` line by line. -/
def bridgeStep (s : BridgeState) (e : Event) : BridgeState × List Command :=
  match e with
  | .request f =>
      let mapping := requestMapping s f
      match alget mapping f.dst with
      | some seg =>
          ({ s with
             mapping := mapping
             stat := s.stat ++ [.dispatch f] },
           [.dispatch f seg])
      | none =>
          if existAddr s.pending f.dst = false then
            ({ s with
               mapping := mapping
               stat := s.stat ++ [.broadcast f]
               pending_stat := s.pending_stat ++ [s.pending.length]
               pending := alpush s.pending f.dst f },
             [.broadcast f.dst])
          else
            ({ s with
               mapping := mapping
               stat := s.stat ++ [.broadcast f]
               pending_stat := s.pending_stat ++ [s.pending.length]
               pending := alpush s.pending f.dst f },
             [])
  | .success a seg =>
      let frames := heldAt s.pending a
      let pending := alremove s.pending a
      ({ mapping := alinsert s.mapping a seg
         pending := pending
         stat := s.stat ++ frames.map .dispatch
         pending_stat := s.pending_stat ++ [pending.length] },
       frames.map (fun f => .dispatch f seg))
  | .failure a =>
      let frames := heldAt s.pending a
      let pending := alremove s.pending a
      ({ s with
         pending := pending
         stat := s.stat ++ frames.map .discard
         pending_stat := s.pending_stat ++ [pending.length] },
       frames.map .discard)
  | .shutdown => (s, [])

/-- Run the bridge on a finite event sequence, collecting all emitted
commands; the loop stops at the first `Shutdown` (later events are not
consumed), exactly as the Rust `while let` loop `break`s. -/
def bridgeRun : BridgeState → List Event → BridgeState × List Command
  | s, [] => (s, [])
  | s, .shutdown :: _ => (s, [])
  | s, e :: es =>
      let sc := bridgeStep s e
      let rest := bridgeRun sc.1 es
      (rest.1, sc.2 ++ rest.2)

/-- The per-step trace of a run: for each consumed (non-`Shutdown`) event, the
state the bridge was in when it received it and the commands that step sent. -/
def bridgeTrace : BridgeState → List Event → List (BridgeState × List Command)
  | _, [] => []
  | _, .shutdown :: _ => []
  | s, e :: es => (s, (bridgeStep s e).2) :: bridgeTrace (bridgeStep s e).1 es

/-- Number of `Request` events the bridge consumes from an event sequence
(the loop stops at the first `Shutdown`). -/
def countRequests : List Event → Nat
  | [] => 0
  | .shutdown :: _ => 0
  | .request _ :: es => countRequests es + 1
  | _ :: es => countRequests es

/-- Number of `Dispatch` commands in an emitted command list. -/
def countDispatch (cs : List Command) : Nat :=
  cs.countP fun c => match c with | .dispatch _ _ => true | _ => false

/-- Number of `Discard` commands in an emitted command list. -/
def countDiscard (cs : List Command) : Nat :=
  cs.countP fun c => match c with | .discard _ => true | _ => false

/-- Total number of frames currently stored in the Holder (sum of all bucket
lengths). -/
def heldFrames (p : List (Address × List Frame)) : Nat :=
  (p.map fun kv => kv.2.length).sum

theorem alget_insert {α β : Type} [DecidableEq α] (m : List (α × β)) (a x : α) (b : β) :
    alget (alinsert m a b) x = if a = x then some b else alget m x := by
  induction m with
  | nil => simp [alinsert, alget]
  | cons kv rest ih =>
      obtain ⟨k, v⟩ := kv
      by_cases hk : k = a
      · subst hk
        by_cases hx : k = x <;> simp [alinsert, alget, hx]
      · simp only [alinsert, if_neg hk, alget]
        by_cases hx : k = x
        · subst hx
          have ha : ¬ a = k := fun h => hk h.symm
          simp [alget, ha]
        · simp [alget, if_neg hx, ih]

theorem alget_push (p : List (Address × List Frame)) (a x : Address) (f : Frame) :
    alget (alpush p a f) x =
      if a = x then some ((alget p a).getD [] ++ [f]) else alget p x := by
  induction p with
  | nil => simp [alpush, alget]
  | cons kv rest ih =>
      obtain ⟨k, vs⟩ := kv
      by_cases hk : k = a
      · subst hk
        by_cases hx : k = x <;> simp [alpush, alget, hx]
      · simp only [alpush, if_neg hk, alget]
        by_cases hx : k = x
        · subst hx
          have ha : ¬ a = k := fun h => hk h.symm
          simp [alget, ha]
        · simp [alget, if_neg hx, ih]

theorem alget_remove_ne {α β : Type} [DecidableEq α] (m : List (α × β)) (a x : α)
    (h : a ≠ x) : alget (alremove m a) x = alget m x := by
  induction m with
  | nil => simp [alremove]
  | cons kv rest ih =>
      obtain ⟨k, v⟩ := kv
      by_cases hk : k = a
      · subst hk
        simp [alremove, alget, if_neg h]
      · simp only [alremove, if_neg hk, alget]
        by_cases hx : k = x
        · simp [hx]
        · simp [if_neg hx, ih]

theorem alget_eq_none_of_not_mem {α β : Type} [DecidableEq α] (m : List (α × β)) (a : α)
    (h : a ∉ m.map Prod.fst) : alget m a = none := by
  induction m with
  | nil => rfl
  | cons kv rest ih =>
      obtain ⟨k, v⟩ := kv
      simp only [List.map_cons, List.mem_cons] at h
      push_neg at h
      have hk : ¬ k = a := fun hkk => h.1 hkk.symm
      simp [alget, hk, ih h.2]

theorem alget_remove_self {α β : Type} [DecidableEq α] (m : List (α × β)) (a : α)
    (h : NodupKeys m) : alget (alremove m a) a = none := by
  induction m with
  | nil => rfl
  | cons kv rest ih =>
      obtain ⟨k, v⟩ := kv
      simp only [NodupKeys, List.map_cons, List.nodup_cons] at h
      by_cases hk : k = a
      · subst hk
        simp only [alremove, if_pos rfl]
        exact alget_eq_none_of_not_mem rest k h.1
      · simp [alremove, if_neg hk, alget, if_neg hk, ih h.2]

theorem alremove_of_none {α β : Type} [DecidableEq α] (m : List (α × β)) (a : α)
    (h : alget m a = none) : alremove m a = m := by
  induction m with
  | nil => rfl
  | cons kv rest ih =>
      obtain ⟨k, v⟩ := kv
      by_cases hk : k = a
      · subst hk
        simp [alget] at h
      · simp only [alget, if_neg hk] at h
        simp [alremove, if_neg hk, ih h]

theorem heldFrames_cons (k : Address) (vs : List Frame) (p : List (Address × List Frame)) :
    heldFrames ((k, vs) :: p) = vs.length + heldFrames p := by
  simp [heldFrames]

theorem heldFrames_push (p : List (Address × List Frame)) (a : Address) (f : Frame) :
    heldFrames (alpush p a f) = heldFrames p + 1 := by
  induction p with
  | nil => simp [alpush, heldFrames]
  | cons kv rest ih =>
      obtain ⟨k, vs⟩ := kv
      by_cases hk : k = a
      · subst hk
        simp [alpush, heldFrames_cons]
        omega
      · simp [alpush, if_neg hk, heldFrames_cons, ih]
        omega

theorem heldFrames_remove (p : List (Address × List Frame)) (a : Address) :
    heldFrames (alremove p a) + (heldAt p a).length = heldFrames p := by
  induction p with
  | nil => rfl
  | cons kv rest ih =>
      obtain ⟨k, vs⟩ := kv
      by_cases hk : k = a
      · subst hk
        simp [alremove, heldAt, alget, heldFrames_cons]
        omega
      · simp only [alremove, if_neg hk, heldAt, alget, heldFrames_cons]
        have h2 := ih
        simp only [heldAt] at h2
        omega

theorem countDispatch_append (xs ys : List Command) :
    countDispatch (xs ++ ys) = countDispatch xs + countDispatch ys := by
  simp [countDispatch, List.countP_append]

theorem countDiscard_append (xs ys : List Command) :
    countDiscard (xs ++ ys) = countDiscard xs + countDiscard ys := by
  simp [countDiscard, List.countP_append]

theorem countDispatch_map_dispatch (frames : List Frame) (seg : Segment) :
    countDispatch (frames.map fun f => Command.dispatch f seg) = frames.length := by
  induction frames with
  | nil => rfl
  | cons f rest ih => simp [countDispatch, List.countP_cons] at ih ⊢

theorem countDiscard_map_dispatch (frames : List Frame) (seg : Segment) :
    countDiscard (frames.map fun f => Command.dispatch f seg) = 0 := by
  induction frames with
  | nil => rfl
  | cons f rest ih => simp [countDiscard, List.countP_cons] at ih ⊢

theorem countDiscard_map_discard (frames : List Frame) :
    countDiscard (frames.map Command.discard) = frames.length := by
  induction frames with
  | nil => rfl
  | cons f rest ih => simp [countDiscard, List.countP_cons] at ih ⊢

theorem countDispatch_map_discard (frames : List Frame) :
    countDispatch (frames.map Command.discard) = 0 := by
  induction frames with
  | nil => rfl
  | cons f rest ih => simp [countDispatch, List.countP_cons] at ih ⊢

theorem bridgeStep_request_known (s : BridgeState) (f : Frame) (seg : Segment)
    (h : alget (requestMapping s f) f.dst = some seg) :
    bridgeStep s (.request f) =
      (⟨requestMapping s f, s.pending, s.stat ++ [.dispatch f], s.pending_stat⟩,
       [.dispatch f seg]) := by
  simp [bridgeStep, h]

theorem bridgeStep_request_new (s : BridgeState) (f : Frame)
    (h : alget (requestMapping s f) f.dst = none)
    (hp : existAddr s.pending f.dst = false) :
    bridgeStep s (.request f) =
      (⟨requestMapping s f, alpush s.pending f.dst f, s.stat ++ [.broadcast f],
        s.pending_stat ++ [s.pending.length]⟩,
       [.broadcast f.dst]) := by
  simp [bridgeStep, h, hp]

theorem bridgeStep_request_held (s : BridgeState) (f : Frame)
    (h : alget (requestMapping s f) f.dst = none)
    (hp : existAddr s.pending f.dst = true) :
    bridgeStep s (.request f) =
      (⟨requestMapping s f, alpush s.pending f.dst f, s.stat ++ [.broadcast f],
        s.pending_stat ++ [s.pending.length]⟩,
       []) := by
  simp [bridgeStep, h, hp]

theorem bridgeStep_success (s : BridgeState) (a : Address) (seg : Segment) :
    bridgeStep s (.success a seg) =
      (⟨alinsert s.mapping a seg, alremove s.pending a,
        s.stat ++ (heldAt s.pending a).map .dispatch,
        s.pending_stat ++ [(alremove s.pending a).length]⟩,
       (heldAt s.pending a).map (fun f => .dispatch f seg)) := by
  simp [bridgeStep]

theorem bridgeStep_failure (s : BridgeState) (a : Address) :
    bridgeStep s (.failure a) =
      (⟨s.mapping, alremove s.pending a,
        s.stat ++ (heldAt s.pending a).map .discard,
        s.pending_stat ++ [(alremove s.pending a).length]⟩,
       (heldAt s.pending a).map .discard) := by
  simp [bridgeStep]

theorem countDispatch_broadcast (a : Address) : countDispatch [Command.broadcast a] = 0 := rfl

theorem countDiscard_broadcast (a : Address) : countDiscard [Command.broadcast a] = 0 := rfl

theorem countDispatch_one (f : Frame) (seg : Segment) :
    countDispatch [Command.dispatch f seg] = 1 := rfl

theorem countDiscard_one (f : Frame) (seg : Segment) :
    countDiscard [Command.dispatch f seg] = 0 := rfl

theorem conservation_aux (es : List Event) : ∀ s : BridgeState,
    countDispatch (bridgeRun s es).2 + countDiscard (bridgeRun s es).2
        + heldFrames (bridgeRun s es).1.pending
      = countRequests es + heldFrames s.pending := by
  induction es with
  | nil => intro s; simp [bridgeRun, countDispatch, countDiscard, countRequests]
  | cons e es ih =>
      intro s
      cases e with
      | request f =>
          simp only [bridgeRun, countRequests]
          rcases hd : alget (requestMapping s f) f.dst with _ | seg
          · rcases hp : existAddr s.pending f.dst with _ | _
            · rw [bridgeStep_request_new s f hd hp]
              have ihs := ih ⟨requestMapping s f, alpush s.pending f.dst f,
                s.stat ++ [.broadcast f], s.pending_stat ++ [s.pending.length]⟩
              simp only [countDispatch_append, countDiscard_append,
                countDispatch_broadcast, countDiscard_broadcast]
              simp only [heldFrames_push] at ihs
              omega
            · rw [bridgeStep_request_held s f hd hp]
              have ihs := ih ⟨requestMapping s f, alpush s.pending f.dst f,
                s.stat ++ [.broadcast f], s.pending_stat ++ [s.pending.length]⟩
              simp only [heldFrames_push] at ihs
              simp only [List.nil_append]
              omega
          · rw [bridgeStep_request_known s f seg hd]
            have ihs := ih ⟨requestMapping s f, s.pending,
              s.stat ++ [.dispatch f], s.pending_stat⟩
            simp only [countDispatch_append, countDiscard_append,
              countDispatch_one, countDiscard_one]
            simp only at ihs
            omega
      | success a seg =>
          simp only [bridgeRun, countRequests]
          rw [bridgeStep_success s a seg]
          have ihs := ih ⟨alinsert s.mapping a seg, alremove s.pending a,
            s.stat ++ (heldAt s.pending a).map .dispatch,
            s.pending_stat ++ [(alremove s.pending a).length]⟩
          have hr := heldFrames_remove s.pending a
          simp only [countDispatch_append, countDiscard_append,
            countDispatch_map_dispatch, countDiscard_map_dispatch]
          simp only at ihs
          omega
      | failure a =>
          simp only [bridgeRun, countRequests]
          rw [bridgeStep_failure s a]
          have ihs := ih ⟨s.mapping, alremove s.pending a,
            s.stat ++ (heldAt s.pending a).map .discard,
            s.pending_stat ++ [(alremove s.pending a).length]⟩
          have hr := heldFrames_remove s.pending a
          simp only [countDispatch_append, countDiscard_append,
            countDispatch_map_discard, countDiscard_map_discard]
          simp only at ihs
          omega
      | shutdown =>
          simp [bridgeRun, countRequests, countDispatch, countDiscard]

def addrA : Address := ⟨10, 0, 0, 1⟩

def addrB : Address := ⟨10, 0, 0, 2⟩

def addrC : Address := ⟨10, 0, 0, 3⟩

def segS1 : Segment := ⟨1, 1⟩

def segS2 : Segment := ⟨2, 2⟩

def segS7 : Segment := ⟨7, 7⟩

def frameAB : Frame := ⟨addrA, segS1, addrB, [1, 2, 3, 4]⟩

def frameCB : Frame := ⟨addrC, segS2, addrB, [5, 6, 7, 8]⟩

def frameAC : Frame := ⟨addrA, segS1, addrC, [9, 9, 9, 9]⟩

/-- C1: after consuming any finite event sequence, the number of `Dispatch`
commands emitted plus the number of `Discard` commands emitted plus the
number of frames currently stored in the Holder equals the number of
`Request` events consumed; hence whenever the Holder ends empty (as it does
when every destination with held frames receives a `Success` or `Failure`
before `Shutdown`), `|Dispatch| + |Discard| = |Request|`. -/
theorem c1_conservation (es : List Event) :
    countDispatch (bridgeRun initState es).2 + countDiscard (bridgeRun initState es).2
        + heldFrames (bridgeRun initState es).1.pending = countRequests es
    ∧ ((bridgeRun initState es).1.pending = [] →
        countDispatch (bridgeRun initState es).2 + countDiscard (bridgeRun initState es).2
          = countRequests es) := by
  have h := conservation_aux es initState
  have h0 : heldFrames initState.pending = 0 := rfl
  constructor
  · omega
  · intro hp
    have h1 : heldFrames (bridgeRun initState es).1.pending = 0 := by
      rw [hp]; rfl
    omega

/-- Witness for C1 at the concrete run `Request(frameAB); Failure(addrB)`:
the Holder ends empty and one `Discard` accounts for the one `Request`. -/
theorem c1_conservation_witness :
    countDispatch (bridgeRun initState [.request frameAB, .failure addrB]).2
        + countDiscard (bridgeRun initState [.request frameAB, .failure addrB]).2
      = countRequests [.request frameAB, .failure addrB] :=
  (c1_conservation [.request frameAB, .failure addrB]).2 (by decide)

/-- C3: on `Success(addr, seg)` the bridge overwrites `mapping[addr] = seg`,
appends one `Dispatch` stat record and emits one `Command::Dispatch(frame, seg)`
for each frame held under `addr` in bucket (insertion) order, and afterwards
the Holder has no entry for `addr`. -/
theorem c3_success_release (s : BridgeState) (a : Address) (g : Segment)
    (h : NodupKeys s.pending) :
    (bridgeStep s (.success a g)).1.mapping = alinsert s.mapping a g
    ∧ (bridgeStep s (.success a g)).1.stat
        = s.stat ++ (heldAt s.pending a).map BridgeStatRecord.dispatch
    ∧ (bridgeStep s (.success a g)).2
        = (heldAt s.pending a).map (fun f => Command.dispatch f g)
    ∧ existAddr (bridgeStep s (.success a g)).1.pending a = false := by
  rw [bridgeStep_success]
  refine ⟨rfl, rfl, rfl, ?_⟩
  show (alget (alremove s.pending a) a).isSome = false
  rw [alget_remove_self s.pending a h]
  rfl

/-- Witness for C3 at a Holder holding `[frameAB, frameCB]` under `addrB`:
`Success(addrB, segS7)` emits the two dispatches in insertion order and
empties the bucket. -/
theorem c3_success_release_witness :
    (bridgeStep ⟨[], [(addrB, [frameAB, frameCB])], [], []⟩ (.success addrB segS7)).2
      = [Command.dispatch frameAB segS7, Command.dispatch frameCB segS7]
    ∧ existAddr (bridgeStep ⟨[], [(addrB, [frameAB, frameCB])], [],
        []⟩ (.success addrB segS7)).1.pending addrB = false := by
  have h := c3_success_release ⟨[], [(addrB, [frameAB, frameCB])], [], []⟩ addrB segS7
    (by unfold NodupKeys; decide)
  refine ⟨?_, h.2.2.2⟩
  rw [h.2.2.1]
  decide

/-- C5: on `Failure(addr)` the bridge appends one `Discard` stat record and
emits one `Command::Discard(frame)` per frame held under `addr` in insertion
order, removes the Holder entry for `addr`, and leaves the learning table
completely unchanged. -/
theorem c5_failure_discard (s : BridgeState) (a : Address)
    (h : NodupKeys s.pending) :
    (bridgeStep s (.failure a)).1.mapping = s.mapping
    ∧ (bridgeStep s (.failure a)).1.stat
        = s.stat ++ (heldAt s.pending a).map BridgeStatRecord.discard
    ∧ (bridgeStep s (.failure a)).2 = (heldAt s.pending a).map Command.discard
    ∧ (bridgeStep s (.failure a)).1.pending = alremove s.pending a
    ∧ existAddr (bridgeStep s (.failure a)).1.pending a = false := by
  rw [bridgeStep_failure]
  refine ⟨rfl, rfl, rfl, rfl, ?_⟩
  show (alget (alremove s.pending a) a).isSome = false
  rw [alget_remove_self s.pending a h]
  rfl

/-- Witness for C5 at a Holder holding `[frameAB, frameCB]` under `addrB`:
`Failure(addrB)` discards both frames in insertion order, leaves the mapping
untouched and removes the bucket. -/
theorem c5_failure_discard_witness :
    (bridgeStep ⟨[(addrA, segS1)], [(addrB, [frameAB, frameCB])], [],
        []⟩ (.failure addrB)).1.mapping = [(addrA, segS1)]
    ∧ (bridgeStep ⟨[(addrA, segS1)], [(addrB, [frameAB, frameCB])], [],
        []⟩ (.failure addrB)).2
        = [Command.discard frameAB, Command.discard frameCB] := by
  have h := c5_failure_discard ⟨[(addrA, segS1)], [(addrB, [frameAB, frameCB])], [], []⟩
    addrB (by unfold NodupKeys; decide)
  refine ⟨h.1, ?_⟩
  rw [h.2.2.1]
  decide

/-- C10: `Success(addr, seg)` with no Holder entry for `addr` still inserts
`mapping[addr] = seg`, emits no command, appends no stat record and appends
exactly one `pending_stat` sample; `Failure(addr)` with no entry changes
neither the mapping nor the Holder, emits no command, appends no stat record
and appends exactly one `pending_stat` sample. -/
theorem c10_empty_release (s : BridgeState) (a : Address) (g : Segment)
    (h : existAddr s.pending a = false) :
    ((bridgeStep s (.success a g)).1.mapping = alinsert s.mapping a g
      ∧ (bridgeStep s (.success a g)).1.pending = s.pending
      ∧ (bridgeStep s (.success a g)).1.stat = s.stat
      ∧ (bridgeStep s (.success a g)).1.pending_stat
          = s.pending_stat ++ [s.pending.length]
      ∧ (bridgeStep s (.success a g)).2 = [])
    ∧ ((bridgeStep s (.failure a)).1.mapping = s.mapping
      ∧ (bridgeStep s (.failure a)).1.pending = s.pending
      ∧ (bridgeStep s (.failure a)).1.stat = s.stat
      ∧ (bridgeStep s (.failure a)).1.pending_stat
          = s.pending_stat ++ [s.pending.length]
      ∧ (bridgeStep s (.failure a)).2 = []) := by
  have hn : alget s.pending a = none := by
    cases hq : alget s.pending a with
    | none => rfl
    | some vs => rw [existAddr, hq] at h; simp at h
  have hrm : alremove s.pending a = s.pending := alremove_of_none s.pending a hn
  have hheld : heldAt s.pending a = [] := by rw [heldAt, hn]; rfl
  rw [bridgeStep_success, bridgeStep_failure]
  refine ⟨⟨rfl, hrm, ?_, ?_, ?_⟩, rfl, hrm, ?_, ?_, ?_⟩ <;>
    simp [hheld, hrm]

/-- Witness for C10 at a state holding only a bucket for `addrB`:
`Success(addrC, segS7)` and `Failure(addrC)` find no bucket for `addrC`. -/
theorem c10_empty_release_witness :
    (bridgeStep ⟨[], [(addrB, [frameAB])], [], [1]⟩ (.success addrC segS7)).1.mapping
        = [(addrC, segS7)]
    ∧ (bridgeStep ⟨[], [(addrB, [frameAB])], [], [1]⟩ (.success addrC segS7)).2 = []
    ∧ (bridgeStep ⟨[], [(addrB, [frameAB])], [], [1]⟩ (.failure addrC)).1.pending_stat
        = [1, 1] := by
  have h := c10_empty_release ⟨[], [(addrB, [frameAB])], [], [1]⟩ addrC segS7
    (by decide)
  refine ⟨?_, h.1.2.2.2.2, ?_⟩
  · rw [h.1.1]; decide
  · rw [h.2.2.2.2.1]; decide

/-- C7 counterexample: on the very first `Request` (destination unknown) the
Holder gains a key, yet the single `pending_stat` sample records `0` — the
key count *before* the push — while the Holder key count after the mutation
is `1`; so the sample is not taken after the mutation as the claim states. -/
theorem c7_counterexample :
    (bridgeRun initState [.request frameAB]).1.pending_stat = [0]
    ∧ (bridgeRun initState [.request frameAB]).1.pending.length = 1
    ∧ (bridgeRun initState [.request frameAB]).1.pending_stat
        ≠ [(bridgeRun initState [.request frameAB]).1.pending.length] := by
  decide

/-- C7 (amended): every Holder mutation is accompanied by exactly one
`pending_stat` sample; on a `Request` push the sample is taken *before* the
push and records the key count before the mutation (when the destination is
already mapped, neither the Holder nor `pending_stat` changes), while on a
`Success`/`Failure` drain the sample is taken after the drain and records
the post-drain key count. -/
theorem c7_sampling_point (s : BridgeState) :
    (∀ f, ((bridgeStep s (.request f)).1.pending = s.pending
            ∧ (bridgeStep s (.request f)).1.pending_stat = s.pending_stat)
        ∨ ((bridgeStep s (.request f)).1.pending = alpush s.pending f.dst f
            ∧ (bridgeStep s (.request f)).1.pending_stat
                = s.pending_stat ++ [s.pending.length]))
    ∧ (∀ a g, (bridgeStep s (.success a g)).1.pending = alremove s.pending a
        ∧ (bridgeStep s (.success a g)).1.pending_stat
            = s.pending_stat ++ [(bridgeStep s (.success a g)).1.pending.length])
    ∧ (∀ a, (bridgeStep s (.failure a)).1.pending = alremove s.pending a
        ∧ (bridgeStep s (.failure a)).1.pending_stat
            = s.pending_stat ++ [(bridgeStep s (.failure a)).1.pending.length]) := by
  refine ⟨?_, ?_, ?_⟩
  · intro f
    rcases hd : alget (requestMapping s f) f.dst with _ | seg
    · rcases hp : existAddr s.pending f.dst with _ | _
      · right
        rw [bridgeStep_request_new s f hd hp]
        exact ⟨rfl, rfl⟩
      · right
        rw [bridgeStep_request_held s f hd hp]
        exact ⟨rfl, rfl⟩
    · left
      rw [bridgeStep_request_known s f seg hd]
      exact ⟨rfl, rfl⟩
  · intro a g
    rw [bridgeStep_success]
    exact ⟨rfl, rfl⟩
  · intro a
    rw [bridgeStep_failure]
    exact ⟨rfl, rfl⟩

/-- True when the consumed part of the event sequence (up to the first
`Shutdown`) contains a `Success` event for the given address. -/
def hasSuccessFor : List Event → Address → Bool
  | [], _ => false
  | .success b _ :: es, a => if a = b then true else hasSuccessFor es a
  | .shutdown :: _, _ => false
  | _ :: es, a => hasSuccessFor es a

/-- The first `Request` event in the consumed part of the sequence whose
frame has the given source address, if any. -/
def firstRequestSrc : List Event → Address → Option Frame
  | [], _ => none
  | .request f :: es, a => if f.src = a then some f else firstRequestSrc es a
  | .shutdown :: _, _ => none
  | _ :: es, a => firstRequestSrc es a

theorem alget_requestMapping_some (s : BridgeState) (f : Frame) (a : Address)
    (v : Segment) (h : alget s.mapping a = some v) :
    alget (requestMapping s f) a = some v := by
  unfold requestMapping
  split
  · rename_i hnone
    rw [alget_insert]
    by_cases hfa : f.src = a
    · rw [hfa, h] at hnone
      simp at hnone
    · rw [if_neg hfa]
      exact h
  · exact h

theorem alget_requestMapping_none (s : BridgeState) (f : Frame) (a : Address)
    (ha : alget s.mapping a = none) (hsrc : f.src ≠ a) :
    alget (requestMapping s f) a = none := by
  unfold requestMapping
  split
  · rw [alget_insert, if_neg hsrc]
    exact ha
  · exact ha

theorem bridgeStep_request_mapping (s : BridgeState) (f : Frame) :
    (bridgeStep s (.request f)).1.mapping = requestMapping s f := by
  rcases hd : alget (requestMapping s f) f.dst with _ | seg
  · rcases hp : existAddr s.pending f.dst with _ | _
    · rw [bridgeStep_request_new s f hd hp]
    · rw [bridgeStep_request_held s f hd hp]
  · rw [bridgeStep_request_known s f seg hd]

theorem mapping_persist (es : List Event) : ∀ (s : BridgeState) (a : Address)
    (v : Segment), alget s.mapping a = some v → hasSuccessFor es a = false →
    alget (bridgeRun s es).1.mapping a = some v := by
  induction es with
  | nil => intro s a v hv _; exact hv
  | cons e es ih =>
      intro s a v hv hs
      cases e with
      | request f =>
          simp only [bridgeRun]
          exact ih _ a v
            (by rw [bridgeStep_request_mapping]
                exact alget_requestMapping_some s f a v hv)
            (by simpa [hasSuccessFor] using hs)
      | success b g =>
          simp only [hasSuccessFor] at hs
          by_cases hab : a = b
          · rw [if_pos hab] at hs
            exact absurd hs (by simp)
          · rw [if_neg hab] at hs
            simp only [bridgeRun]
            refine ih _ a v ?_ hs
            rw [bridgeStep_success]
            show alget (alinsert s.mapping b g) a = some v
            rw [alget_insert, if_neg (fun h => hab h.symm)]
            exact hv
      | failure b =>
          simp only [hasSuccessFor] at hs
          simp only [bridgeRun]
          refine ih _ a v ?_ hs
          rw [bridgeStep_failure]
          exact hv
      | shutdown =>
          simp only [bridgeRun]
          exact hv

theorem mapping_first_learn (es : List Event) : ∀ (s : BridgeState) (a : Address)
    (f : Frame), alget s.mapping a = none → firstRequestSrc es a = some f →
    hasSuccessFor es a = false →
    alget (bridgeRun s es).1.mapping a = some f.src_seg := by
  induction es with
  | nil => intro s a f _ hf; exact absurd hf (by simp [firstRequestSrc])
  | cons e es ih =>
      intro s a f ha hf hs
      cases e with
      | request g =>
          simp only [firstRequestSrc] at hf
          simp only [hasSuccessFor] at hs
          by_cases hga : g.src = a
          · rw [if_pos hga] at hf
            injection hf with hf
            subst hf
            simp only [bridgeRun]
            refine mapping_persist es _ a g.src_seg ?_ hs
            rw [bridgeStep_request_mapping]
            unfold requestMapping
            rw [hga, ha]
            simp only [Option.isNone_none, if_true]
            rw [alget_insert, if_pos rfl]
          · rw [if_neg hga] at hf
            simp only [bridgeRun]
            refine ih _ a f ?_ hf hs
            rw [bridgeStep_request_mapping]
            exact alget_requestMapping_none s g a ha hga
      | success b g =>
          simp only [firstRequestSrc] at hf
          simp only [hasSuccessFor] at hs
          by_cases hab : a = b
          · rw [if_pos hab] at hs
            exact absurd hs (by simp)
          · rw [if_neg hab] at hs
            simp only [bridgeRun]
            refine ih _ a f ?_ hf hs
            rw [bridgeStep_success]
            show alget (alinsert s.mapping b g) a = none
            rw [alget_insert, if_neg (fun h => hab h.symm)]
            exact ha
      | failure b =>
          simp only [firstRequestSrc] at hf
          simp only [hasSuccessFor] at hs
          simp only [bridgeRun]
          refine ih _ a f ?_ hf hs
          rw [bridgeStep_failure]
          exact ha
      | shutdown =>
          exact absurd hf (by simp [firstRequestSrc])

/-- C4: source learning is first-wins: a `Request` inserts
`frame.src → frame.src_seg` only when `frame.src` is absent (an existing
entry is never overwritten by source learning); hence from the initial state
the mapping entry of an address equals the `src_seg` of the first `Request`
with that source, and an existing entry can change only through a
`Success` event for that address. -/
theorem c4_source_first_wins (s : BridgeState) (f : Frame) (es : List Event)
    (a : Address) :
    ((alget s.mapping f.src).isSome = true →
        (bridgeStep s (.request f)).1.mapping = s.mapping)
    ∧ (alget s.mapping f.src = none →
        (bridgeStep s (.request f)).1.mapping = alinsert s.mapping f.src f.src_seg)
    ∧ (∀ g, firstRequestSrc es a = some g → hasSuccessFor es a = false →
        alget (bridgeRun initState es).1.mapping a = some g.src_seg)
    ∧ (∀ v, alget s.mapping a = some v → hasSuccessFor es a = false →
        alget (bridgeRun s es).1.mapping a = some v) := by
  refine ⟨?_, ?_, ?_, ?_⟩
  · intro h
    rw [bridgeStep_request_mapping]
    unfold requestMapping
    rcases hq : alget s.mapping f.src with _ | v
    · rw [hq] at h
      simp at h
    · simp
  · intro h
    rw [bridgeStep_request_mapping]
    unfold requestMapping
    rw [h]
    simp
  · exact fun g hg hs => mapping_first_learn es initState a g rfl hg hs
  · exact fun v hv hs => mapping_persist es s a v hv hs

/-- Witness for C4: a present entry survives a new `Request` with the same
source; an absent source is learned; the first learned segment is retrieved
after the run; and an entry persists across a `Failure`. -/
theorem c4_source_first_wins_witness :
    (bridgeStep ⟨[(addrA, segS1)], [], [], []⟩ (.request frameAC)).1.mapping
        = [(addrA, segS1)]
    ∧ (bridgeStep initState (.request frameAB)).1.mapping
        = alinsert initState.mapping frameAB.src frameAB.src_seg
    ∧ alget (bridgeRun initState [.request frameAB]).1.mapping addrA = some segS1
    ∧ alget (bridgeRun ⟨[(addrA, segS1)], [], [], []⟩ [.failure addrB]).1.mapping
        addrA = some segS1 := by
  refine ⟨?_, ?_, ?_, ?_⟩
  · exact (c4_source_first_wins ⟨[(addrA, segS1)], [], [], []⟩ frameAC [] addrA).1
      (by decide)
  · exact (c4_source_first_wins initState frameAB [] addrA).2.1 (by decide)
  · exact (c4_source_first_wins initState frameAB [.request frameAB] addrA).2.2.1
      frameAB (by decide) (by decide)
  · exact (c4_source_first_wins ⟨[(addrA, segS1)], [], [], []⟩ frameAB
      [.failure addrB] addrA).2.2.2 segS1 (by decide) (by decide)

theorem broadcast_not_mem_map_dispatch (d : Address) (g : Segment) (l : List Frame) :
    Command.broadcast d ∉ l.map (fun f => Command.dispatch f g) := by
  intro h
  rcases List.mem_map.mp h with ⟨f, _, hf⟩
  exact Command.noConfusion hf

theorem broadcast_not_mem_map_discard (d : Address) (l : List Frame) :
    Command.broadcast d ∉ l.map Command.discard := by
  intro h
  rcases List.mem_map.mp h with ⟨f, _, hf⟩
  exact Command.noConfusion hf

theorem step_broadcast_sound (s : BridgeState) (e : Event) (d : Address)
    (h : Command.broadcast d ∈ (bridgeStep s e).2) :
    existAddr s.pending d = false := by
  cases e with
  | request f =>
      rcases hd : alget (requestMapping s f) f.dst with _ | seg
      · rcases hp : existAddr s.pending f.dst with _ | _
        · rw [bridgeStep_request_new s f hd hp] at h
          simp only [List.mem_singleton] at h
          cases h
          exact hp
        · rw [bridgeStep_request_held s f hd hp] at h
          exact absurd h (List.not_mem_nil _)
      · rw [bridgeStep_request_known s f seg hd] at h
        simp only [List.mem_singleton] at h
        exact Command.noConfusion h
  | success a g =>
      rw [bridgeStep_success] at h
      exact absurd h (broadcast_not_mem_map_dispatch d g _)
  | failure a =>
      rw [bridgeStep_failure] at h
      exact absurd h (broadcast_not_mem_map_discard d _)
  | shutdown => exact absurd h (List.not_mem_nil _)

theorem trace_broadcast_sound (es : List Event) : ∀ (s : BridgeState) (i : Nat)
    (si : BridgeState) (ci : List Command) (d : Address),
    (bridgeTrace s es).get? i = some (si, ci) → Command.broadcast d ∈ ci →
    existAddr si.pending d = false := by
  induction es with
  | nil => intro s i si ci d h _; simp [bridgeTrace] at h
  | cons e es ih =>
      intro s i si ci d h hb
      cases e with
      | shutdown => simp [bridgeTrace] at h
      | request f =>
          cases i with
          | zero =>
              simp only [bridgeTrace, List.get?] at h
              injection h with h
              injection h with h1 h2
              subst h1
              subst h2
              exact step_broadcast_sound s (.request f) d hb
          | succ n =>
              simp only [bridgeTrace, List.get?] at h
              exact ih _ n si ci d h hb
      | success a g =>
          cases i with
          | zero =>
              simp only [bridgeTrace, List.get?] at h
              injection h with h
              injection h with h1 h2
              subst h1
              subst h2
              exact step_broadcast_sound s (.success a g) d hb
          | succ n =>
              simp only [bridgeTrace, List.get?] at h
              exact ih _ n si ci d h hb
      | failure a =>
          cases i with
          | zero =>
              simp only [bridgeTrace, List.get?] at h
              injection h with h
              injection h with h1 h2
              subst h1
              subst h2
              exact step_broadcast_sound s (.failure a) d hb
          | succ n =>
              simp only [bridgeTrace, List.get?] at h
              exact ih _ n si ci d h hb

theorem bridgeRun_cons_request (s : BridgeState) (f : Frame) (es : List Event) :
    bridgeRun s (.request f :: es)
      = ((bridgeRun (bridgeStep s (.request f)).1 es).1,
         (bridgeStep s (.request f)).2
           ++ (bridgeRun (bridgeStep s (.request f)).1 es).2) := rfl

theorem step_request_unknown (s : BridgeState) (f : Frame) (d : Address)
    (hfd : f.dst = d) (hfs : f.src ≠ d) (hm : alget s.mapping d = none) :
    alget (bridgeStep s (.request f)).1.mapping d = none
    ∧ alget (bridgeStep s (.request f)).1.pending d
        = some ((alget s.pending d).getD [] ++ [f])
    ∧ (bridgeStep s (.request f)).2
        = (if existAddr s.pending d = false then [Command.broadcast d] else []) := by
  have hd : alget (requestMapping s f) f.dst = none := by
    rw [hfd]
    exact alget_requestMapping_none s f d hm hfs
  have hmap : alget (bridgeStep s (.request f)).1.mapping d = none := by
    rw [bridgeStep_request_mapping]
    exact alget_requestMapping_none s f d hm hfs
  rcases hp : existAddr s.pending f.dst with _ | _
  · rw [bridgeStep_request_new s f hd hp] at hmap ⊢
    refine ⟨hmap, ?_, ?_⟩
    · show alget (alpush s.pending f.dst f) d = _
      rw [hfd, alget_push, if_pos rfl]
    · rw [hfd] at hp
      rw [if_pos hp, hfd]
  · rw [bridgeStep_request_held s f hd hp] at hmap ⊢
    refine ⟨hmap, ?_, ?_⟩
    · show alget (alpush s.pending f.dst f) d = _
      rw [hfd, alget_push, if_pos rfl]
    · rw [hfd] at hp
      rw [hp]
      rfl

/-- C2: for every destination `d`, a step can emit `Command::Broadcast(d)`
only from a state whose Holder has no entry for `d`, so between any two
emissions of `Broadcast(d)` in a run there is a state with no entry for `d`
(the Holder key is the de-dup token); in particular three consecutive
`Request`s for an unmapped destination `d` emit exactly one
`Command::Broadcast(d)` and leave the bucket `[f1, f2, f3]` under `d`. -/
theorem c2_probe_dedup (es : List Event) (d : Address) :
    (∀ i j si ci sj cj, i < j →
        (bridgeTrace initState es).get? i = some (si, ci) →
        (bridgeTrace initState es).get? j = some (sj, cj) →
        Command.broadcast d ∈ ci → Command.broadcast d ∈ cj →
        ∃ k sk ck, i < k ∧ k ≤ j
          ∧ (bridgeTrace initState es).get? k = some (sk, ck)
          ∧ existAddr sk.pending d = false)
    ∧ (∀ f1 f2 f3 : Frame, f1.dst = d → f2.dst = d → f3.dst = d →
        f1.src ≠ d → f2.src ≠ d → f3.src ≠ d →
        (bridgeRun initState [.request f1, .request f2, .request f3]).2
            = [Command.broadcast d]
        ∧ alget (bridgeRun initState
              [.request f1, .request f2, .request f3]).1.pending d
            = some [f1, f2, f3]) := by
  constructor
  · intro i j si ci sj cj hij hi hj hbi hbj
    exact ⟨j, sj, cj, hij, le_refl j, hj,
      trace_broadcast_sound es initState j sj cj d hj hbj⟩
  · intro f1 f2 f3 h1 h2 h3 g1 g2 g3
    have A1 := step_request_unknown initState f1 d h1 g1 rfl
    have A2 := step_request_unknown (bridgeStep initState (.request f1)).1 f2 d
      h2 g2 A1.1
    have A3 := step_request_unknown
      (bridgeStep (bridgeStep initState (.request f1)).1 (.request f2)).1 f3 d
      h3 g3 A2.1
    have c1 : (bridgeStep initState (.request f1)).2 = [Command.broadcast d] := by
      rw [A1.2.2]
      rfl
    have p1 : alget (bridgeStep initState (.request f1)).1.pending d
        = some [f1] := by
      rw [A1.2.1]
      rfl
    have e1 : existAddr (bridgeStep initState (.request f1)).1.pending d = true := by
      rw [existAddr, p1]
      rfl
    have c2 : (bridgeStep (bridgeStep initState (.request f1)).1 (.request f2)).2
        = [] := by
      rw [A2.2.2, e1]
      rfl
    have p2 : alget
        (bridgeStep (bridgeStep initState (.request f1)).1 (.request f2)).1.pending d
        = some [f1, f2] := by
      rw [A2.2.1, p1]
      rfl
    have e2 : existAddr
        (bridgeStep (bridgeStep initState (.request f1)).1 (.request f2)).1.pending d
        = true := by
      rw [existAddr, p2]
      rfl
    have c3 : (bridgeStep
        (bridgeStep (bridgeStep initState (.request f1)).1 (.request f2)).1
        (.request f3)).2 = [] := by
      rw [A3.2.2, e2]
      rfl
    have p3 : alget (bridgeStep
        (bridgeStep (bridgeStep initState (.request f1)).1 (.request f2)).1
        (.request f3)).1.pending d = some [f1, f2, f3] := by
      rw [A3.2.1, p2]
      rfl
    constructor
    · rw [bridgeRun_cons_request, bridgeRun_cons_request, bridgeRun_cons_request,
        c1, c2, c3]
      rfl
    · rw [bridgeRun_cons_request, bridgeRun_cons_request, bridgeRun_cons_request]
      exact p3

/-- Witness for C2 at the concrete run of three `Request`s to `addrB`:
exactly one broadcast and a three-frame bucket; the trace part instantiated
at the (vacuous for this run) pair of broadcast-emitting steps 0 < 1. -/
theorem c2_probe_dedup_witness :
    (bridgeRun initState
        [.request frameAB, .request frameCB, .request frameAB]).2
      = [Command.broadcast addrB]
    ∧ alget (bridgeRun initState
        [.request frameAB, .request frameCB, .request frameAB]).1.pending addrB
      = some [frameAB, frameCB, frameAB] := by
  exact (c2_probe_dedup [.request frameAB, .request frameCB, .request frameAB]
      addrB).2 frameAB frameCB frameAB (by decide) (by decide) (by decide)
      (by decide) (by decide) (by decide)

/-- The latency-scatter walk of `BridgeStat::export_latency_scatter`: records
paired with their timestamps are walked in order; a `Broadcast` stores its
time in `hold_map` keyed by the frame value (overwriting any previous entry),
a `Dispatch` or `Discard` pops the entry and emits the pair
`(begin, t - begin)`, or contributes nothing when no entry is present. -/
def exportLatency : List (BridgeStatRecord × Nat) → List (Frame × Nat) →
    List (Nat × Nat)
  | [], _ => []
  | (.broadcast f, t) :: rest, hm => exportLatency rest (alinsert hm f t)
  | (.dispatch f, t) :: rest, hm =>
      match alget hm f with
      | none => exportLatency rest hm
      | some b => (b, t - b) :: exportLatency rest (alremove hm f)
  | (.discard f, t) :: rest, hm =>
      match alget hm f with
      | none => exportLatency rest hm
      | some b => (b, t - b) :: exportLatency rest (alremove hm f)

/-- The latency entries produced from a zipped record/timestamp sequence,
starting from the empty `hold_map`. -/
def latencyScatter (rs : List (BridgeStatRecord × Nat)) : List (Nat × Nat) :=
  exportLatency rs []

/-- The count the claim predicts: terminal (`Dispatch`/`Discard`) records
whose frame value appeared in some earlier `Broadcast` record (`seen`
accumulates all broadcast frame values walked so far). -/
def countTerminalWithPriorB : List BridgeStatRecord → List Frame → Nat
  | [], _ => 0
  | .broadcast f :: rest, seen => countTerminalWithPriorB rest (f :: seen)
  | .dispatch f :: rest, seen =>
      (if f ∈ seen then 1 else 0) + countTerminalWithPriorB rest seen
  | .discard f :: rest, seen =>
      (if f ∈ seen then 1 else 0) + countTerminalWithPriorB rest seen

/-- The frames of the terminal (`Dispatch`/`Discard`) records, in order. -/
def terminalFrames : List BridgeStatRecord → List Frame
  | [] => []
  | .broadcast _ :: rest => terminalFrames rest
  | .dispatch f :: rest => f :: terminalFrames rest
  | .discard f :: rest => f :: terminalFrames rest

/-- C8 counterexample: with records `Broadcast f; Dispatch f; Dispatch f`
(a frame value dispatched twice after one broadcast) the exporter produces
one latency entry, while two terminal records have a prior `Broadcast` of
their frame value in stats — the claimed equality fails. -/
theorem c8_counterexample :
    (latencyScatter [(.broadcast frameAB, 0), (.dispatch frameAB, 1),
        (.dispatch frameAB, 2)]).length = 1
    ∧ countTerminalWithPriorB
        [.broadcast frameAB, .dispatch frameAB, .dispatch frameAB] [] = 2
    ∧ (1 : Nat) ≠ 2 := by
  decide

theorem c8_latency_count_aux : ∀ (rs : List (BridgeStatRecord × Nat))
    (hm : List (Frame × Nat)) (seen : List Frame),
    (terminalFrames (rs.map Prod.fst)).Nodup →
    (∀ f, f ∈ terminalFrames (rs.map Prod.fst) →
      ((alget hm f).isSome = true ↔ f ∈ seen)) →
    (exportLatency rs hm).length = countTerminalWithPriorB (rs.map Prod.fst) seen := by
  intro rs
  induction rs with
  | nil => intro hm seen _ _; rfl
  | cons rt rest ih =>
      intro hm seen hnd hinv
      obtain ⟨r, t⟩ := rt
      cases r with
      | broadcast f =>
          simp only [List.map_cons, terminalFrames] at hnd hinv
          simp only [List.map_cons, exportLatency, countTerminalWithPriorB]
          refine ih (alinsert hm f t) (f :: seen) hnd ?_
          intro g hg
          rw [alget_insert]
          by_cases hfg : f = g
          · subst hfg
            simp
          · rw [if_neg hfg]
            constructor
            · intro hs
              exact List.mem_cons_of_mem f ((hinv g hg).mp hs)
            · intro hs
              rcases List.mem_cons.mp hs with hgf | hgs
              · exact absurd hgf.symm hfg
              · exact (hinv g hg).mpr hgs
      | dispatch f =>
          simp only [List.map_cons, terminalFrames] at hnd hinv
          rw [List.nodup_cons] at hnd
          have hf := hinv f (List.mem_cons_self f _)
          simp only [List.map_cons, exportLatency, countTerminalWithPriorB]
          rcases hq : alget hm f with _ | b
          · have hfseen : f ∉ seen := by
              intro hc
              have := hf.mpr hc
              rw [hq] at this
              simp at this
            rw [if_neg hfseen]
            simp only [Nat.zero_add]
            refine ih hm seen hnd.2 ?_
            intro g hg
            exact hinv g (List.mem_cons_of_mem f hg)
          · have hfseen : f ∈ seen := hf.mp (by rw [hq]; rfl)
            rw [if_pos hfseen]
            simp only [List.length_cons]
            rw [ih (alremove hm f) seen hnd.2 ?_]
            · omega
            · intro g hg
              have hfg : f ≠ g := fun hc => hnd.1 (hc ▸ hg)
              rw [alget_remove_ne hm f g hfg]
              exact hinv g (List.mem_cons_of_mem f hg)
      | discard f =>
          simp only [List.map_cons, terminalFrames] at hnd hinv
          rw [List.nodup_cons] at hnd
          have hf := hinv f (List.mem_cons_self f _)
          simp only [List.map_cons, exportLatency, countTerminalWithPriorB]
          rcases hq : alget hm f with _ | b
          · have hfseen : f ∉ seen := by
              intro hc
              have := hf.mpr hc
              rw [hq] at this
              simp at this
            rw [if_neg hfseen]
            simp only [Nat.zero_add]
            refine ih hm seen hnd.2 ?_
            intro g hg
            exact hinv g (List.mem_cons_of_mem f hg)
          · have hfseen : f ∈ seen := hf.mp (by rw [hq]; rfl)
            rw [if_pos hfseen]
            simp only [List.length_cons]
            rw [ih (alremove hm f) seen hnd.2 ?_]
            · omega
            · intro g hg
              have hfg : f ≠ g := fun hc => hnd.1 (hc ▸ hg)
              rw [alget_remove_ne hm f g hfg]
              exact hinv g (List.mem_cons_of_mem f hg)

/-- C8 (amended): when no frame value occurs in two terminal records, the
number of latency entries equals the number of terminal records whose frame
value appeared in a prior `Broadcast` record; in general a terminal record
contributes an entry only when its frame value is still stored in the
temporary map (each `Broadcast` is consumed by the first matching terminal
record, so duplicated terminal frame values contribute at most once). -/
theorem c8_latency_count (rs : List (BridgeStatRecord × Nat))
    (h : (terminalFrames (rs.map Prod.fst)).Nodup) :
    (latencyScatter rs).length = countTerminalWithPriorB (rs.map Prod.fst) [] := by
  refine c8_latency_count_aux rs [] [] h ?_
  intro f _
  constructor
  · intro hs
    exact absurd hs (by simp [alget])
  · intro hs
    exact absurd hs (List.not_mem_nil f)

/-- Witness for C8 at a run with distinct terminal frames: one broadcast
matched by a dispatch plus an unmatched discard give one latency entry. -/
theorem c8_latency_count_witness :
    (latencyScatter [(.broadcast frameAB, 0), (.dispatch frameAB, 5),
        (.discard frameCB, 7)]).length
      = countTerminalWithPriorB
          [.broadcast frameAB, .dispatch frameAB, .discard frameCB] [] :=
  c8_latency_count
    [(.broadcast frameAB, 0), (.dispatch frameAB, 5), (.discard frameCB, 7)]
    (by decide)

/-- One cut position of `distribute`: `(dist(i as f64 / dur as f64) * frame_seq.len() as f64) as usize`.
The `as usize` cast truncates toward zero and clamps negative values to `0`,
modelled by `Int.floor` followed by `Int.toNat`; the distribution function is
abstracted as an exact rational function (the claims quantify over it). -/
def cutPos (dist : ℚ → ℚ) (dur n i : Nat) : Nat :=
  (Int.floor (dist ((i : ℚ) / (dur : ℚ)) * (n : ℚ))).toNat

/-- The slicing loop of `distribute`: for each bucket index `i` in order,
compute `pos = cutPos …` and take the slice `frame_seq[last_pos..pos]`;
`none` models the Rust slice panic when `pos < last_pos` or `pos > n`.
Returns the buckets together with the final `last_pos`. -/
def distGo (fs : List Frame) (n : Nat) (cut : Nat → Nat) :
    List Nat → Nat → Option (List (List Frame) × Nat)
  | [], last => some ([], last)
  | i :: is, last =>
      let pos := cut i
      if pos < last ∨ n < pos then none
      else
        match distGo fs n cut is pos with
        | none => none
        | some (bs, fin) => some ((fs.drop last).take (pos - last) :: bs, fin)

/-- Append the rounding residual to the last bucket
(`buckets.last_mut().unwrap().extend_from_slice(&frame_seq[last_pos..])`);
`none` models the `unwrap` panic when the bucket vector is empty. -/
def appendToLast : List (List Frame) → List Frame → Option (List (List Frame))
  | [], _ => none
  | [b], xs => some [b ++ xs]
  | b :: bs, xs =>
      match appendToLast bs xs with
      | none => none
      | some bs2 => some (b :: bs2)

/-- Model of `distribute(frame_seq, dur_sec, dist)` from `simulate.rs`:
`dur_sec * 1000` buckets, bucket `i` receiving `frame_seq[last_pos..pos_i]`,
with any remaining frames appended to the last bucket; `none` models a panic
(an out-of-range slice, or the `unwrap` of `last_mut()` when there are no
buckets). -/
def distribute (fs : List Frame) (dur_sec : Nat) (dist : ℚ → ℚ) :
    Option (List (List Frame)) :=
  let dur := dur_sec * 1000
  match distGo fs fs.length (cutPos dist dur fs.length) (List.range dur) 0 with
  | none => none
  | some (bs, last_pos) =>
      if last_pos < fs.length then appendToLast bs (fs.drop last_pos) else some bs

/-- The replay loop of `orchestrator`, abstracted over the successive
wall-clock readings `cur` (milliseconds since start) observed by the loop:
a reading `cur ≥ #buckets` flushes all remaining buckets and exits; a
reading `cur > last` sends buckets `[last, cur)` in order and advances
`last`; otherwise nothing is sent.  `none` models a reading sequence that
ends before the loop exits (the real loop reads the clock forever). -/
def orchRun : List Nat → Nat → List (List Frame) → Option (List Frame)
  | [], _, _ => none
  | c :: cs, last, buckets =>
      if buckets.length ≤ c then
        some ((buckets.drop last).flatten)
      else if last < c then
        match orchRun cs c buckets with
        | none => none
        | some sent => some (((buckets.drop last).take (c - last)).flatten ++ sent)
      else
        orchRun cs last buckets

theorem distGo_range (fs : List Frame) (cut : Nat → Nat)
    (hmono : ∀ i j, i ≤ j → cut i ≤ cut j) (hle : ∀ i, cut i ≤ fs.length) :
    ∀ (k start last : Nat), last ≤ fs.length → (∀ j, start ≤ j → last ≤ cut j) →
    ∃ bs fin, distGo fs fs.length cut (List.range' start k) last = some (bs, fin)
      ∧ bs.length = k ∧ last ≤ fin ∧ fin ≤ fs.length
      ∧ (∀ j, start + k ≤ j → fin ≤ cut j)
      ∧ bs.flatten = (fs.drop last).take (fin - last) := by
  intro k
  induction k with
  | zero =>
      intro start last hl hcut
      exact ⟨[], last, rfl, rfl, le_refl _, hl, fun j hj => hcut j (by omega),
        by simp⟩
  | succ k ihk =>
      intro start last hl hcut
      have hrange : List.range' start (k + 1) = start :: List.range' (start + 1) k := rfl
      have hpos_le : cut start ≤ fs.length := hle start
      have hlast_le : last ≤ cut start := hcut start (le_refl start)
      obtain ⟨bs, fin, heq, hlen, hfin1, hfin2, hfin3, hflat⟩ :=
        ihk (start + 1) (cut start) hpos_le (fun j hj => hmono start j (by omega))
      refine ⟨(fs.drop last).take (cut start - last) :: bs, fin, ?_, ?_, ?_,
        hfin2, ?_, ?_⟩
      · rw [hrange]
        simp only [distGo]
        rw [if_neg (by omega), heq]
      · simp [hlen]
      · omega
      · intro j hj
        exact hfin3 j (by omega)
      · simp only [List.flatten_cons]
        rw [hflat]
        have h1 : fs.drop (cut start) = (fs.drop last).drop (cut start - last) := by
          rw [List.drop_drop]
          congr 1
          omega
        rw [h1, ← List.take_add]
        congr 1
        omega

theorem appendToLast_spec : ∀ (bs : List (List Frame)) (xs : List Frame),
    bs ≠ [] → ∃ bs2, appendToLast bs xs = some bs2
      ∧ bs2.flatten = bs.flatten ++ xs ∧ bs2.length = bs.length := by
  intro bs
  induction bs with
  | nil => intro xs h; exact absurd rfl h
  | cons b rest ih =>
      intro xs _
      cases rest with
      | nil => exact ⟨[b ++ xs], rfl, by simp, rfl⟩
      | cons c rest2 =>
          obtain ⟨bs2, heq, hflat, hlen⟩ := ih xs (by simp)
          refine ⟨b :: bs2, ?_, ?_, ?_⟩
          · simp only [appendToLast]
            rw [heq]
          · simp [hflat]
          · simp [hlen]

theorem orchRun_flatten : ∀ (cs : List Nat) (last : Nat)
    (buckets : List (List Frame)) (sent : List Frame),
    orchRun cs last buckets = some sent → sent = (buckets.drop last).flatten := by
  intro cs
  induction cs with
  | nil => intro last buckets sent h; exact absurd h (by simp [orchRun])
  | cons c cs ih =>
      intro last buckets sent h
      simp only [orchRun] at h
      by_cases h1 : buckets.length ≤ c
      · rw [if_pos h1] at h
        injection h with h
        exact h.symm
      · rw [if_neg h1] at h
        by_cases h2 : last < c
        · rw [if_pos h2] at h
          rcases hq : orchRun cs c buckets with _ | sent2
          · rw [hq] at h
            exact absurd h (by simp)
          · rw [hq] at h
            injection h with h
            rw [← h, ih c buckets sent2 hq]
            have hd : (buckets.drop last).drop (c - last) = buckets.drop c := by
              rw [List.drop_drop]
              congr 1
              omega
            rw [← hd, ← List.flatten_append, List.take_append_drop]
        · rw [if_neg h2] at h
          exact ih last buckets sent h

theorem orchRun_terminates : ∀ (cs : List Nat) (last : Nat)
    (buckets : List (List Frame)), (∃ c ∈ cs, buckets.length ≤ c) →
    ∃ sent, orchRun cs last buckets = some sent := by
  intro cs
  induction cs with
  | nil =>
      intro last buckets h
      rcases h with ⟨c, hc, _⟩
      exact absurd hc (List.not_mem_nil c)
  | cons c cs ih =>
      intro last buckets h
      by_cases h1 : buckets.length ≤ c
      · exact ⟨_, by simp only [orchRun]; rw [if_pos h1]⟩
      · have h3 : ∃ c2 ∈ cs, buckets.length ≤ c2 := by
          rcases h with ⟨c2, hc2, hlen⟩
          rcases List.mem_cons.mp hc2 with rfl | hmem
          · exact absurd hlen h1
          · exact ⟨c2, hmem, hlen⟩
        by_cases h2 : last < c
        · obtain ⟨sent2, hs2⟩ := ih c buckets h3
          refine ⟨((buckets.drop last).take (c - last)).flatten ++ sent2, ?_⟩
          simp only [orchRun]
          rw [if_neg h1, if_pos h2, hs2]
        · obtain ⟨sent2, hs2⟩ := ih last buckets h3
          refine ⟨sent2, ?_⟩
          simp only [orchRun]
          rw [if_neg h1, if_neg h2]
          exact hs2

theorem cutPos_mono (dist : ℚ → ℚ) (hmono : ∀ x y, x ≤ y → dist x ≤ dist y)
    (dur n : Nat) : ∀ i j, i ≤ j → cutPos dist dur n i ≤ cutPos dist dur n j := by
  intro i j hij
  unfold cutPos
  apply Int.toNat_le_toNat
  apply Int.floor_mono
  apply mul_le_mul_of_nonneg_right _ (Nat.cast_nonneg n)
  apply hmono
  rcases Nat.eq_zero_or_pos dur with hd | hd
  · simp [hd]
  · have hc : (0 : ℚ) < (dur : ℚ) := by positivity
    gcongr


theorem cutPos_le (dist : ℚ → ℚ) (hone : ∀ x, dist x ≤ 1) (dur n i : Nat) :
    cutPos dist dur n i ≤ n := by
  unfold cutPos
  have h1 : dist ((i : ℚ) / (dur : ℚ)) * (n : ℚ) ≤ (n : ℚ) :=
    mul_le_of_le_one_left (Nat.cast_nonneg n) (hone _)
  have h2 : Int.floor (dist ((i : ℚ) / (dur : ℚ)) * (n : ℚ)) ≤ (n : ℤ) := by
    rw [show ((n : ℤ)) = Int.floor ((n : ℚ)) from (Int.floor_natCast n).symm]
    exact Int.floor_mono h1
  calc (Int.floor (dist ((i : ℚ) / (dur : ℚ)) * (n : ℚ))).toNat
      ≤ ((n : ℤ)).toNat := Int.toNat_le_toNat h2
    _ = n := by simp

/-- C9 (amended): for any input sequence, any duration of at least one
second, and any distribution function that is monotonically non-decreasing
with values at most `1`, `distribute` succeeds with `dur_sec * 1000` buckets
whose concatenation (rounding residual appended to the last bucket) is
exactly the input sequence — so per-bucket order is preserved and nothing is
reordered across buckets — and the orchestrator replay loop, whatever
wall-clock readings it observes (provided some reading reaches the end of
the schedule), sends exactly the input sequence, i.e. exactly `N` `Request`
events in order. -/
theorem c9_distribute_orchestrator (fs : List Frame) (dur_sec : Nat)
    (dist : ℚ → ℚ) (hdur : 1 ≤ dur_sec)
    (hmono : ∀ x y, x ≤ y → dist x ≤ dist y) (hone : ∀ x, dist x ≤ 1) :
    ∃ bs, distribute fs dur_sec dist = some bs
      ∧ bs.length = dur_sec * 1000
      ∧ bs.flatten = fs
      ∧ ∀ sched, (∃ c ∈ sched, bs.length ≤ c) →
          orchRun sched 0 bs = some fs := by
  obtain ⟨bs0, fin, heq, hlen, hfin1, hfin2, hfin3, hflat⟩ :=
    distGo_range fs (cutPos dist (dur_sec * 1000) fs.length)
      (cutPos_mono dist hmono (dur_sec * 1000) fs.length)
      (cutPos_le dist hone (dur_sec * 1000) fs.length)
      (dur_sec * 1000) 0 0 (Nat.zero_le _) (fun j _ => Nat.zero_le _)
  have hflat2 : bs0.flatten = fs.take fin := by
    rw [hflat]
    simp
  have hbs0 : bs0 ≠ [] := by
    intro hc
    rw [hc] at hlen
    simp at hlen
    omega
  have hunf : distribute fs dur_sec dist
      = (if fin < fs.length then appendToLast bs0 (fs.drop fin) else some bs0) := by
    unfold distribute
    dsimp only
    rw [List.range_eq_range', heq]
  by_cases hfl : fin < fs.length
  · obtain ⟨bs2, heq2, hflat3, hlen2⟩ := appendToLast_spec bs0 (fs.drop fin) hbs0
    have hbs2 : bs2.flatten = fs := by
      rw [hflat3, hflat2, List.take_append_drop]
    refine ⟨bs2, ?_, ?_, hbs2, ?_⟩
    · rw [hunf, if_pos hfl, heq2]
    · rw [hlen2, hlen]
    · intro sched hsched
      obtain ⟨sent, hs⟩ := orchRun_terminates sched 0 bs2 hsched
      have hsent := orchRun_flatten sched 0 bs2 sent hs
      rw [List.drop_zero, hbs2] at hsent
      rw [hs, hsent]
  · have hfin_eq : fin = fs.length := by omega
    have hbs0f : bs0.flatten = fs := by
      rw [hflat2, hfin_eq, List.take_length]
    refine ⟨bs0, ?_, hlen, hbs0f, ?_⟩
    · rw [hunf, if_neg hfl]
    · intro sched hsched
      obtain ⟨sent, hs⟩ := orchRun_terminates sched 0 bs0 hsched
      have hsent := orchRun_flatten sched 0 bs0 sent hs
      rw [List.drop_zero, hbs0f] at hsent
      rw [hs, hsent]

/-- C9 counterexample: at `dur_sec = 0` with one input frame, `distribute`
creates zero buckets and panics on `buckets.last_mut().unwrap()` (modelled
as `none`), although the constant distribution `fun _ => 0` is monotonically
non-decreasing with values at most `1`; a fortiori zero buckets cannot
concatenate to a nonempty input, so the claim fails for `D = 0`. -/
theorem c9_counterexample :
    distribute [frameAB] 0 (fun _ => (0 : ℚ)) = none
    ∧ (∀ x y : ℚ, x ≤ y → (fun _ : ℚ => (0 : ℚ)) x ≤ (fun _ : ℚ => (0 : ℚ)) y)
    ∧ (∀ x : ℚ, (fun _ : ℚ => (0 : ℚ)) x ≤ 1) := by
  refine ⟨rfl, fun _ _ _ => le_refl 0, fun _ => ?_⟩
  norm_num

/-- Witness for C9 with two frames, one second and the constant
distribution `1` (monotone, bounded by `1`). -/
theorem c9_distribute_orchestrator_witness :
    ∃ bs, distribute [frameAB, frameCB] 1 (fun _ => (1 : ℚ)) = some bs
      ∧ bs.length = 1 * 1000
      ∧ bs.flatten = [frameAB, frameCB]
      ∧ ∀ sched, (∃ c ∈ sched, bs.length ≤ c) →
          orchRun sched 0 bs = some [frameAB, frameCB] :=
  c9_distribute_orchestrator [frameAB, frameCB] 1 (fun _ => (1 : ℚ))
    (le_refl 1) (fun x y _ => le_refl 1) (fun x => le_refl 1)

/-- Value of a hexadecimal digit, as accepted by `u8::from_str_radix(_, 16)`
(both cases accepted). -/
def hexVal? (c : Char) : Option Nat :=
  if '0' ≤ c ∧ c ≤ '9' then some (c.toNat - '0'.toNat)
  else if 'a' ≤ c ∧ c ≤ 'f' then some (c.toNat - 'a'.toNat + 10)
  else if 'A' ≤ c ∧ c ≤ 'F' then some (c.toNat - 'A'.toNat + 10)
  else none

/-- Model of `u8::from_str_radix(s, 16)`: an optional leading `+`, then at
least one hex digit, accumulated with the `u8` overflow check. -/
def u8FromStrRadix16 (s : List Char) : Option Nat :=
  match (match s with | '+' :: rest => rest | _ => s) with
  | [] => none
  | digits => digits.foldl (fun acc c =>
      match acc, hexVal? c with
      | some a, some d => if a * 16 + d ≤ 255 then some (a * 16 + d) else none
      | _, _ => none) (some 0)

/-- Model of `Address::try_from(&str)` (`lib.rs`): length must be exactly 11,
then the character pairs at positions 0–1, 3–4, 6–7 and 9–10 are parsed as
hex bytes (the separator positions are never inspected).  Strings are
modelled as character lists; on ASCII input Rust's byte indices coincide
with character indices. -/
def addressTryFrom (value : List Char) : Option Address :=
  if value.length ≠ 11 then none
  else
    match u8FromStrRadix16 ((value.drop 0).take 2),
          u8FromStrRadix16 ((value.drop 3).take 2),
          u8FromStrRadix16 ((value.drop 6).take 2),
          u8FromStrRadix16 ((value.drop 9).take 2) with
    | some b0, some b1, some b2, some b3 => some ⟨b0, b1, b2, b3⟩
    | _, _, _, _ => none

/-- Model of `Segment::try_from(&str)`: length 5, hex pairs at 0–1 and 3–4. -/
def segmentTryFrom (value : List Char) : Option Segment :=
  if value.length ≠ 5 then none
  else
    match u8FromStrRadix16 ((value.drop 0).take 2),
          u8FromStrRadix16 ((value.drop 3).take 2) with
    | some b0, some b1 => some ⟨b0, b1⟩
    | _, _ => none

/-- ASCII whitespace, for the model of `str::trim`. -/
def isWS (c : Char) : Bool :=
  c = ' ' || c = '\t' || c = '\n' || c = '\r'

/-- Model of `str::trim`: leading and trailing whitespace removed. -/
def trimChars (s : List Char) : List Char :=
  ((s.dropWhile isWS).reverse.dropWhile isWS).reverse

/-- Model of `str::split(' ')`: split at every space, keeping empty pieces
(always at least one piece). -/
def splitSpace : List Char → List (List Char)
  | [] => [[]]
  | c :: rest =>
      if c = ' ' then [] :: splitSpace rest
      else
        match splitSpace rest with
        | [] => [[c]]
        | g :: gs => (c :: g) :: gs

/-- Result of fallible Rust code that may also panic. -/
inductive ParseResult (α : Type) where
  | ok (a : α)
  | err
  | panic
deriving DecidableEq

/-- One iteration `data[i] = u8::from_str_radix(&data_s[i*2..i*2+2], 16)?`
of the payload loop of `Frame::try_from`.  Rust evaluates the right-hand
side first: the string slice panics when `i*2+2` exceeds the length of
`data_s`, a parse failure returns `Err`; only then is the array write
evaluated, which panics when `i` is out of bounds for `data`. -/
def frameDataStep (ds : List Char) (acc : ParseResult (List Nat)) (i : Nat) :
    ParseResult (List Nat) :=
  match acc with
  | .ok data =>
      if ds.length < i * 2 + 2 then .panic
      else
        match u8FromStrRadix16 ((ds.drop (i * 2)).take 2) with
        | none => .err
        | some v => if i < data.length then .ok (data.set i v) else .panic
  | r => r

/-- The payload loop `for i in 0..16 { data[i] = ... }` of `Frame::try_from`,
starting from `FrameData::default()` (four zero bytes). -/
def frameDataLoop (ds : List Char) : ParseResult (List Nat) :=
  (List.range 16).foldl (frameDataStep ds) (.ok [0, 0, 0, 0])

/-- Model of `Frame::try_from(&str)` (`lib.rs`): trim, split on spaces, take
four pieces (`Err` when fewer), run the 16-iteration payload loop (which may
panic), then parse `src`, `src_seg` and `dst` in that order. -/
def frameTryFrom (value : List Char) : ParseResult Frame :=
  match splitSpace (trimChars value) with
  | src :: src_seg :: dst :: data_s :: _ =>
      match frameDataLoop data_s with
      | .panic => .panic
      | .err => .err
      | .ok data =>
          match addressTryFrom src with
          | none => .err
          | some s =>
              match segmentTryFrom src_seg with
              | none => .err
              | some ss =>
                  match addressTryFrom dst with
                  | none => .err
                  | some d => .ok ⟨s, ss, d, data⟩
  | _ => .err

theorem foldl_frameDataStep_err (ds : List Char) :
    ∀ l : List Nat, l.foldl (frameDataStep ds) .err = .err := by
  intro l
  induction l with
  | nil => rfl
  | cons i rest ih =>
      rw [List.foldl_cons]
      exact ih

theorem foldl_frameDataStep_panic (ds : List Char) :
    ∀ l : List Nat, l.foldl (frameDataStep ds) .panic = .panic := by
  intro l
  induction l with
  | nil => rfl
  | cons i rest ih =>
      rw [List.foldl_cons]
      exact ih

theorem frameDataStep_ok_eq (ds : List Char) (data : List Nat) (i : Nat) :
    frameDataStep ds (.ok data) i
      = if ds.length < i * 2 + 2 then .panic
        else
          match u8FromStrRadix16 ((ds.drop (i * 2)).take 2) with
          | none => .err
          | some v => if i < data.length then .ok (data.set i v) else .panic := rfl

theorem foldl_frameDataStep_ok (ds : List Char) :
    ∀ (l : List Nat) (acc : ParseResult (List Nat)) (data2 : List Nat),
    l.foldl (frameDataStep ds) acc = .ok data2 →
    ∃ data, acc = .ok data ∧ data2.length = data.length := by
  intro l
  induction l with
  | nil => intro acc data2 h; exact ⟨data2, h, rfl⟩
  | cons i rest ih =>
      intro acc data2 h
      rw [List.foldl_cons] at h
      obtain ⟨d1, hd1, hlen⟩ := ih (frameDataStep ds acc i) data2 h
      rcases acc with data | _ | _
      · refine ⟨data, rfl, ?_⟩
        rw [frameDataStep_ok_eq] at hd1
        by_cases hl : ds.length < i * 2 + 2
        · rw [if_pos hl] at hd1
          exact absurd hd1 (by simp)
        · rw [if_neg hl] at hd1
          rcases hv : u8FromStrRadix16 ((ds.drop (i * 2)).take 2) with _ | v
          · rw [hv] at hd1
            exact absurd hd1 (by simp)
          · rw [hv] at hd1
            dsimp only at hd1
            by_cases hi : i < data.length
            · rw [if_pos hi] at hd1
              injection hd1 with hd1
              rw [hlen, ← hd1]
              simp
            · rw [if_neg hi] at hd1
              exact absurd hd1 (by simp)
      · rw [show frameDataStep ds .err i = .err from rfl] at hd1
        exact absurd hd1 (by simp)
      · rw [show frameDataStep ds .panic i = .panic from rfl] at hd1
        exact absurd hd1 (by simp)

theorem frameDataLoop_never_ok (ds : List Char) (data : List Nat) :
    frameDataLoop ds ≠ .ok data := by
  intro hc
  unfold frameDataLoop at hc
  rw [show List.range 16
      = [0, 1, 2, 3] ++ 4 :: [5, 6, 7, 8, 9, 10, 11, 12, 13, 14, 15] from by decide]
    at hc
  rw [List.foldl_append] at hc
  rcases hq : [0, 1, 2, 3].foldl (frameDataStep ds) (ParseResult.ok [0, 0, 0, 0])
    with d | _ | _
  · rw [hq] at hc
    obtain ⟨d0, hd0, hlen⟩ := foldl_frameDataStep_ok ds [0, 1, 2, 3] _ d hq
    injection hd0 with hd0
    have hd4 : d.length = 4 := by
      rw [hlen, ← hd0]
      rfl
    have hstep4 : frameDataStep ds (ParseResult.ok d) 4 = .panic
        ∨ frameDataStep ds (ParseResult.ok d) 4 = .err := by
      by_cases hl : ds.length < 4 * 2 + 2
      · left
        rw [frameDataStep_ok_eq, if_pos hl]
      · rcases hv : u8FromStrRadix16 ((ds.drop (4 * 2)).take 2) with _ | v
        · right
          rw [frameDataStep_ok_eq, if_neg hl, hv]
        · left
          rw [frameDataStep_ok_eq, if_neg hl, hv]
          dsimp only
          rw [if_neg (by omega : ¬ (4 < d.length))]
    rcases hstep4 with hs | hs
    · rw [List.foldl_cons, hs, foldl_frameDataStep_panic] at hc
      exact absurd hc (by simp)
    · rw [List.foldl_cons, hs, foldl_frameDataStep_err] at hc
      exact absurd hc (by simp)
  · rw [hq, foldl_frameDataStep_err] at hc
    exact absurd hc (by simp)
  · rw [hq, foldl_frameDataStep_panic] at hc
    exact absurd hc (by simp)

theorem frameTryFrom_never_ok (value : List Char) (f : Frame) :
    frameTryFrom value ≠ .ok f := by
  unfold frameTryFrom
  rcases hsp : splitSpace (trimChars value) with _ | ⟨src, tail1⟩
  · simp
  rcases tail1 with _ | ⟨sseg, tail2⟩
  · simp
  rcases tail2 with _ | ⟨dst, tail3⟩
  · simp
  rcases tail3 with _ | ⟨ds, rest⟩
  · simp
  dsimp only
  rcases hq : frameDataLoop ds with d | _ | _
  · exact absurd hq (frameDataLoop_never_ok ds d)
  · simp
  · simp

/-- C6 (code bug): the textual `Frame` parser can never return `Ok`: its
payload loop runs 16 iterations against the 4-byte `FrameData`, so any input
whose first four payload byte pairs parse as hex panics at `i = 4` (an
out-of-bounds string slice or an out-of-bounds array write) and every other
input returns `Err`.  In particular a well-formed frame line with the
documented 4-byte payload makes `Frame::try_from` panic instead of
returning `Ok`/`Err`. -/
theorem c6_frame_parse_panics :
    frameTryFrom ("00:00:00:01 00:01 00:00:00:02 aabbccdd".data) = .panic
    ∧ (∀ (value : List Char) (f : Frame), frameTryFrom value ≠ .ok f) :=
  ⟨by decide, frameTryFrom_never_ok⟩
